import Mathlib

/-!
Verification development for the `git-storage` library (src/src/storage.ts).

The definitions below are a shallow embedding of the record model and of the
operations of `GitStorage` that the verified properties concern.  JavaScript
numbers that hold timestamps are modelled by `JsNum`, which distinguishes the
finite values from `NaN` and the two infinities, because the merge code calls
`Number.isFinite` on them.  JSON values are modelled by `JsValue`.  Record
maps (the per-bucket JSON objects) are modelled as association lists from key
to record; the SHA-1 bucket sharding routes every key to one fixed bucket, and
no property here is sensitive to the sharding, so the store is modelled as the
union map over all buckets.
-/

/-- Model of a JavaScript number as stored in `updatedAt`: either a finite
value or one of the non-finite values (`NaN`, `Infinity`, `-Infinity`). -/
inductive JsNum where
  | fin (n : Int)
  | nan
  | inf
  | ninf
deriving DecidableEq, Repr

/-- JavaScript `Number.isFinite(x) ? x : 0`, as used by `mergeRecord` in
src/src/storage.ts (lines 663-664). -/
def JsNum.finClamp : JsNum → Int
  | .fin n => n
  | _ => 0

/-- JavaScript strict equality `===` on numbers: `NaN` is unequal to
everything, including itself. -/
def JsNum.jsEq : JsNum → JsNum → Bool
  | .fin a, .fin b => a == b
  | .inf, .inf => true
  | .ninf, .ninf => true
  | _, _ => false

/-- The `ValueType` union of src/src/types.ts. -/
inductive ValueType where
  | string
  | number
  | binary
  | object
  | array
  | list
deriving DecidableEq, Repr

/-- Model of a JSON-ish JavaScript value held in a record's `value` field.
`vbytes s` stands for the byte buffer decoded from the base64 text `s`
(the base64 codec itself is the out-of-scope value codec). -/
inductive JsValue where
  | vnull
  | vbool (b : Bool)
  | vnum (n : JsNum)
  | vstr (s : String)
  | varr (xs : List JsValue)
  | vobj (fields : List (String × JsValue))
  | vbytes (base64 : String)

/-- The `RecordEntry` interface of src/src/types.ts.  `deletedAt` is `none`
for JavaScript `null`/`undefined` and `some n` for a numeric timestamp;
`conflictLoser` holds the `winnerId` when the marker is present. -/
structure RecordEntry where
  id : String
  key : String
  type : ValueType
  createdAt : Int
  updatedAt : JsNum
  deletedAt : Option Int
  conflictLoser : Option String
  value : JsValue

/-- JavaScript truthiness of a `number | null | undefined` field such as
`deletedAt`: `null`, `undefined` and `0` are falsy, every other number is
truthy.  This is what `Boolean(record.deletedAt)` and `!record.deletedAt`
compute in src/src/storage.ts. -/
def jsTruthy : Option Int → Bool
  | none => false
  | some n => n != 0

/-- Embedding of `deserializeValue` of src/src/storage.ts (lines 44-47): a binary record
whose stored value is a string is base64-decoded; everything else passes
through verbatim. -/
def deserializeValue (t : ValueType) (v : JsValue) : JsValue :=
  if t = .binary then
    match v with
    | .vstr s => .vbytes s
    | _ => v
  else v

/-- Embedding of `mergeRecord` of src/src/storage.ts (lines 658-670): last-write-wins on
`Number.isFinite`-clamped `updatedAt`, with `local.id >= remote.id`
(lexicographic) as the tie-break; an absent side loses to a present one. -/
def mergeRecord : Option RecordEntry → Option RecordEntry → Option RecordEntry
  | none, none => none
  | none, some r => some r
  | some l, none => some l
  | some l, some r =>
    let localUpdated := l.updatedAt.finClamp
    let remoteUpdated := r.updatedAt.finClamp
    if remoteUpdated < localUpdated then some l
    else if localUpdated < remoteUpdated then some r
    else if r.id ≤ l.id then some l
    else some r

/-- Result of `mergeListItemRecord`: the winning record, if any, and the
defeated record when it must be preserved for reinsertion. -/
structure MergeItemResult where
  winner : Option RecordEntry
  loser : Option RecordEntry

/-- Embedding of `mergeListItemRecord` of src/src/storage.ts (lines 672-692).  The
tombstone tests are the JavaScript truthiness checks
`Boolean(local.deletedAt)` / `Boolean(remote.deletedAt)`, and the loser
condition compares the raw `updatedAt` fields with strict `!==` (hence
`JsNum.jsEq`) and the ids with `!==`.  The source decides which input object
`mergeRecord` returned by reference equality; here that is captured by
re-deciding the same comparisons (`mergeRecordPicksLocal`), which returns
`true` exactly when the source's `mergeRecord` returns its first argument. -/
def mergeRecordPicksLocal (l r : RecordEntry) : Bool :=
  if r.updatedAt.finClamp < l.updatedAt.finClamp then true
  else if l.updatedAt.finClamp < r.updatedAt.finClamp then false
  else r.id ≤ l.id

def mergeListItemRecord : Option RecordEntry → Option RecordEntry → MergeItemResult
  | none, none => { winner := none, loser := none }
  | none, some r => { winner := some r, loser := none }
  | some l, none => { winner := some l, loser := none }
  | some l, some r =>
    let localDeleted := jsTruthy l.deletedAt
    let remoteDeleted := jsTruthy r.deletedAt
    if localDeleted && !remoteDeleted then { winner := some r, loser := none }
    else if remoteDeleted && !localDeleted then { winner := some l, loser := none }
    else
      let winner := if mergeRecordPicksLocal l r then l else r
      if !localDeleted && !remoteDeleted then
        let loser := if mergeRecordPicksLocal l r then r else l
        if !(l.updatedAt.jsEq r.updatedAt) || l.id ≠ r.id then
          { winner := some winner, loser := some loser }
        else { winner := some winner, loser := none }
      else { winner := some winner, loser := none }

theorem mergeRecord_some_some (l r : RecordEntry) :
    mergeRecord (some l) (some r) =
      some (if mergeRecordPicksLocal l r then l else r) := by
  by_cases h1 : r.updatedAt.finClamp < l.updatedAt.finClamp
  · simp [mergeRecord, mergeRecordPicksLocal, h1]
  · by_cases h2 : l.updatedAt.finClamp < r.updatedAt.finClamp
    · simp [mergeRecord, mergeRecordPicksLocal, h1, h2]
    · by_cases h3 : r.id ≤ l.id
      · simp [mergeRecord, mergeRecordPicksLocal, h1, h2, h3]
      · simp [mergeRecord, mergeRecordPicksLocal, h1, h2, h3]

theorem mergeRecordPicksLocal_self (x : RecordEntry) :
    mergeRecordPicksLocal x x = true := by
  simp [mergeRecordPicksLocal]

/-- Claim C1: for scalar records, the merge returns the record with the
strictly larger `updatedAt` after the `Number.isFinite` clamp (non-finite
treated as 0); on an equal (clamped) `updatedAt` the record whose `id` is
lexicographically greater-or-equal wins, so on a tie the local record is kept
exactly when `remote.id ≤ local.id`; a lone present side wins and two absent
sides yield no record. -/
theorem mergeRecord_lww_claim (l r : RecordEntry) :
    (r.updatedAt.finClamp < l.updatedAt.finClamp →
      mergeRecord (some l) (some r) = some l) ∧
    (l.updatedAt.finClamp < r.updatedAt.finClamp →
      mergeRecord (some l) (some r) = some r) ∧
    (l.updatedAt.finClamp = r.updatedAt.finClamp →
      (r.id ≤ l.id → mergeRecord (some l) (some r) = some l) ∧
      (l.id < r.id → mergeRecord (some l) (some r) = some r)) ∧
    mergeRecord (some l) none = some l ∧
    mergeRecord none (some r) = some r ∧
    (mergeRecord none none : Option RecordEntry) = none := by
  refine ⟨fun h => ?_, fun h => ?_, fun h => ⟨fun hid => ?_, fun hid => ?_⟩,
    rfl, rfl, rfl⟩
  · simp [mergeRecord, h]
  · have h1 : ¬ r.updatedAt.finClamp < l.updatedAt.finClamp := by omega
    simp [mergeRecord, h, h1]
  · have h1 : ¬ r.updatedAt.finClamp < l.updatedAt.finClamp := by omega
    have h2 : ¬ l.updatedAt.finClamp < r.updatedAt.finClamp := by omega
    simp [mergeRecord, h1, h2, hid]
  · have h1 : ¬ r.updatedAt.finClamp < l.updatedAt.finClamp := by omega
    have h2 : ¬ l.updatedAt.finClamp < r.updatedAt.finClamp := by omega
    have h3 : ¬ r.id ≤ l.id := not_le.mpr hid
    simp [mergeRecord, h1, h2, h3]

/-- Local record with a `NaN` `updatedAt`, used to exercise the non-finite
clamp of claim C1 at a concrete input. -/
def sampleNanLocal : RecordEntry :=
  { id := "a", key := "k", type := .string, createdAt := 0,
    updatedAt := .nan, deletedAt := none, conflictLoser := none,
    value := .vnull }

def sampleZeroRemote : RecordEntry :=
  { id := "a", key := "k", type := .string, createdAt := 0,
    updatedAt := .fin 0, deletedAt := none, conflictLoser := none,
    value := .vnull }

theorem mergeRecord_lww_claim_witness :
    mergeRecord (some sampleNanLocal) (some sampleZeroRemote) =
      some sampleNanLocal :=
  ((mergeRecord_lww_claim sampleNanLocal sampleZeroRemote).2.2.1 rfl).1
    (le_refl _)

/-- Claim C7: for all pairs `(local, remote)` of scalar records with the same
key (each side possibly absent), the scalar merger is idempotent:
`merge(merge(local, remote), remote) = merge(local, remote)`. -/
theorem mergeRecord_idempotent (l r : Option RecordEntry) :
    mergeRecord (mergeRecord l r) r = mergeRecord l r := by
  match l, r with
  | none, none => rfl
  | none, some r =>
    have h : mergeRecord none (some r) = some r := rfl
    rw [h, mergeRecord_some_some, mergeRecordPicksLocal_self]
    simp
  | some l, none => rfl
  | some l, some r =>
    rw [mergeRecord_some_some l r]
    cases h : mergeRecordPicksLocal l r
    · rw [if_neg (by simp [h]), mergeRecord_some_some r r, mergeRecordPicksLocal_self]
      simp
    · rw [if_pos (by simp [h]), mergeRecord_some_some l r, h]
      simp

/-- Records witnessing the gap between "tombstoned (`deletedAt` set)" and the
JavaScript truthiness test `Boolean(deletedAt)` used by the source: the local
record has `deletedAt = 0`, which is set but falsy, so the code treats it as
live. -/
def zeroTombLocal : RecordEntry :=
  { id := "b", key := "list:k:item:x", type := .string, createdAt := 0,
    updatedAt := .fin 5, deletedAt := some 0, conflictLoser := none,
    value := .vnull }

def zeroTombRemote : RecordEntry :=
  { id := "a", key := "list:k:item:x", type := .string, createdAt := 0,
    updatedAt := .fin 3, deletedAt := none, conflictLoser := none,
    value := .vnull }

/-- Claim C2 counterexample: with `local.deletedAt = 0` (set, hence
"tombstoned" in the claim's sense) and `remote` live, the claim requires the
live remote record to win with no loser; the code's truthiness test treats
the local record as live too, runs LWW, returns the local record as winner
and emits the remote record as a loser. -/
theorem mergeListItemRecord_zero_tombstone_cex :
    zeroTombLocal.deletedAt.isSome = true ∧
    zeroTombRemote.deletedAt.isSome = false ∧
    (mergeListItemRecord (some zeroTombLocal) (some zeroTombRemote)).winner
      = some zeroTombLocal ∧
    (mergeListItemRecord (some zeroTombLocal) (some zeroTombRemote)).loser
      = some zeroTombRemote ∧
    ¬((mergeListItemRecord (some zeroTombLocal) (some zeroTombRemote)).winner
        = some zeroTombRemote ∧
      (mergeListItemRecord (some zeroTombLocal) (some zeroTombRemote)).loser
        = none) := by
  refine ⟨rfl, rfl, rfl, rfl, fun h => ?_⟩
  have hw : (mergeListItemRecord (some zeroTombLocal)
      (some zeroTombRemote)).winner = some zeroTombLocal := rfl
  rw [hw] at h
  have := congrArg RecordEntry.id (Option.some.inj h.1)
  simp [zeroTombLocal, zeroTombRemote] at this

/-- Claim C2 (amended): with "tombstoned" meaning a truthy (set and nonzero)
`deletedAt`, and "differ in `updatedAt`" meaning JavaScript strict
inequality: if exactly one side is tombstoned the live record wins with no
loser; if both are live, LWW picks the winner and the defeated record is
emitted as a loser exactly when the two records differ in `updatedAt` or in
`id`; if both are tombstoned, or one side is absent, no loser is emitted. -/
theorem mergeListItemRecord_cases (l r : RecordEntry) :
    (jsTruthy l.deletedAt = true → jsTruthy r.deletedAt = false →
      mergeListItemRecord (some l) (some r) =
        { winner := some r, loser := none }) ∧
    (jsTruthy l.deletedAt = false → jsTruthy r.deletedAt = true →
      mergeListItemRecord (some l) (some r) =
        { winner := some l, loser := none }) ∧
    (jsTruthy l.deletedAt = false → jsTruthy r.deletedAt = false →
      (mergeListItemRecord (some l) (some r)).winner =
        mergeRecord (some l) (some r) ∧
      (mergeListItemRecord (some l) (some r)).loser =
        (if l.updatedAt.jsEq r.updatedAt = false ∨ l.id ≠ r.id then
          some (if mergeRecordPicksLocal l r then r else l)
        else none)) ∧
    (jsTruthy l.deletedAt = true → jsTruthy r.deletedAt = true →
      (mergeListItemRecord (some l) (some r)).winner =
        mergeRecord (some l) (some r) ∧
      (mergeListItemRecord (some l) (some r)).loser = none) ∧
    mergeListItemRecord (some l) none = { winner := some l, loser := none } ∧
    mergeListItemRecord none (some r) = { winner := some r, loser := none } ∧
    mergeListItemRecord none none = { winner := none, loser := none } := by
  refine ⟨fun h1 h2 => ?_, fun h1 h2 => ?_, fun h1 h2 => ?_, fun h1 h2 => ?_,
    rfl, rfl, rfl⟩
  · simp [mergeListItemRecord, h1, h2]
  · simp [mergeListItemRecord, h1, h2]
  · rw [mergeRecord_some_some]
    by_cases hc : l.updatedAt.jsEq r.updatedAt = false ∨ l.id ≠ r.id
    · constructor
      · simp only [mergeListItemRecord, h1, h2]
        rcases hc with hc | hc
        · simp [hc]
        · simp [hc]
      · simp only [mergeListItemRecord, h1, h2, if_pos hc]
        rcases hc with hc | hc
        · simp [hc]
        · simp [hc]
    · push_neg at hc
      simp [mergeListItemRecord, h1, h2, hc.1, hc.2]
  · simp [mergeListItemRecord, h1, h2, mergeRecord_some_some]

/-- Sample pair for the amended C2 theorem: local tombstoned (truthy
`deletedAt`), remote live and older; the live remote record wins with no
loser. -/
def truthyTombLocal : RecordEntry :=
  { id := "b", key := "list:k:item:x", type := .string, createdAt := 0,
    updatedAt := .fin 5, deletedAt := some 7, conflictLoser := none,
    value := .vnull }

theorem mergeListItemRecord_cases_witness :
    mergeListItemRecord (some truthyTombLocal) (some zeroTombRemote) =
      { winner := some zeroTombRemote, loser := none } :=
  (mergeListItemRecord_cases truthyTombLocal zeroTombRemote).1 rfl rfl

/-- The record store: the union over all buckets of the per-bucket JSON
object mapping key to record.  SHA-1 sharding (`hashKeyToBucket`) routes each
key to one fixed bucket, so a single map is observationally equivalent for
per-key reads and writes. -/
abbrev Store := List (String × RecordEntry)

/-- JavaScript object property read `data[key]` (`?? null`): keys in a bucket
object are unique, so first match is the match. -/
def lookupRec : Store → String → Option RecordEntry
  | [], _ => none
  | (k, r) :: rest, key => if k = key then some r else lookupRec rest key

/-- JavaScript object property write `data[record.key] = record`: replace the
existing entry for the key, or append a new one. -/
def setRec : Store → RecordEntry → Store
  | [], r => [(r.key, r)]
  | (k, x) :: rest, r =>
    if k = r.key then (k, r) :: rest else (k, x) :: setRec rest r

theorem lookupRec_setRec_self (st : Store) (r : RecordEntry) :
    lookupRec (setRec st r) r.key = some r := by
  induction st with
  | nil => simp [setRec, lookupRec]
  | cons hd tl ih =>
    obtain ⟨k, x⟩ := hd
    by_cases h : k = r.key <;> simp [setRec, lookupRec, h, ih]

namespace GitStorage

/-- Embedding of `get` of src/src/storage.ts (lines 264-270): null for a missing record or
a truthy `deletedAt`, otherwise the deserialized value. -/
def get (st : Store) (key : String) : Option JsValue :=
  match lookupRec st key with
  | none => none
  | some record =>
    if jsTruthy record.deletedAt then none
    else some (deserializeValue record.type record.value)

/-- Embedding of `has` of src/src/storage.ts (lines 272-277): `Boolean(record && !record.deletedAt)`. -/
def has (st : Store) (key : String) : Bool :=
  match lookupRec st key with
  | none => false
  | some record => !(jsTruthy record.deletedAt)

/-- Embedding of `meta` of src/src/storage.ts (lines 279-283): the raw record, tombstoned
or not, or null. -/
def meta (st : Store) (key : String) : Option RecordEntry :=
  lookupRec st key

/-- Embedding of `del` of src/src/storage.ts (lines 298-315), with `now()` passed as `t`
and `makeId()` passed as `freshId`.  The written record keeps the existing
id, type, createdAt and value when present and otherwise mints fresh ones;
`updatedAt` and `deletedAt` are both set to `t`.  (The `writeBucket` counter
increments are modelled with the sync coordinator state, not here.) -/
def del (st : Store) (key : String) (freshId : String) (t : Int) : Store :=
  let existing := lookupRec st key
  let record : RecordEntry :=
    { id := (existing.map (·.id)).getD freshId,
      key := key,
      type := (existing.map (·.type)).getD .string,
      createdAt := (existing.map (·.createdAt)).getD t,
      updatedAt := .fin t,
      deletedAt := some t,
      conflictLoser := none,
      value := (existing.map (·.value)).getD .vnull }
  setRec st record

/-- Claim C10: `del` on a key with no existing record is not a no-op: it
persists a fresh tombstone with the minted id, type string, null value and
`createdAt = updatedAt = deletedAt = now`; afterwards `has` is false and
`get` is null, but `meta` returns the tombstone. -/
theorem del_missing_key_claim (st : Store) (k freshId : String) (t : Int)
    (habs : lookupRec st k = none) (ht : 0 < t) :
    meta (del st k freshId t) k =
      some { id := freshId, key := k, type := .string, createdAt := t,
             updatedAt := .fin t, deletedAt := some t, conflictLoser := none,
             value := .vnull } ∧
    has (del st k freshId t) k = false ∧
    get (del st k freshId t) k = none := by
  have hdel : del st k freshId t =
      setRec st { id := freshId, key := k, type := .string, createdAt := t,
                  updatedAt := .fin t, deletedAt := some t,
                  conflictLoser := none, value := .vnull } := by
    simp [del, habs]
  have hlook : lookupRec (del st k freshId t) k =
      some { id := freshId, key := k, type := .string, createdAt := t,
             updatedAt := .fin t, deletedAt := some t, conflictLoser := none,
             value := .vnull } := by
    rw [hdel]
    exact lookupRec_setRec_self st _
  refine ⟨hlook, ?_, ?_⟩
  · simp [has, hlook, jsTruthy, ht.ne']
  · simp [get, hlook, jsTruthy, ht.ne']

theorem del_missing_key_claim_witness :
    meta (del [] "a" "id1" 1000) "a" =
      some { id := "id1", key := "a", type := .string, createdAt := 1000,
             updatedAt := .fin 1000, deletedAt := some 1000,
             conflictLoser := none, value := .vnull } ∧
    has (del [] "a" "id1" 1000) "a" = false ∧
    get (del [] "a" "id1" 1000) "a" = none :=
  del_missing_key_claim [] "a" "id1" 1000 rfl (by decide)

/-- Embedding of `listMetaKey` of src/src/storage.ts (lines 179-181). -/
def listMetaKey (key : String) : String := "list:" ++ key

/-- Embedding of `listItemKey` of src/src/storage.ts (lines 183-185). -/
def listItemKey (key itemId : String) : String :=
  "list:" ++ key ++ ":item:" ++ itemId

/-- Order extraction of `getListMeta` (line 254): `Array.isArray(value?.order)
? value.order.filter(typeof string) : []`. -/
def extractOrder (v : JsValue) : List String :=
  match v with
  | .vobj fields =>
    match (fields.find? (fun p => p.1 == "order")).map Prod.snd with
    | some (JsValue.varr xs) =>
      xs.filterMap (fun x =>
        match x with
        | JsValue.vstr s => some s
        | _ => none)
    | _ => []
  | _ => []

/-- Embedding of `getListMeta` of src/src/storage.ts (lines 246-256): a missing or
tombstoned meta record yields no record and an empty order; a non-list
record raises WRONGTYPE; otherwise the filtered `order` array is returned. -/
def getListMeta (st : Store) (key : String) :
    Except String (Option RecordEntry × List String) :=
  match lookupRec st (listMetaKey key) with
  | none => .ok (none, [])
  | some record =>
    if jsTruthy record.deletedAt then .ok (none, [])
    else if record.type ≠ .list then
      .error "WRONGTYPE Operation against a key holding the wrong kind of value"
    else .ok (some record, extractOrder record.value)

/-- Embedding of `lindex` of src/src/storage.ts (lines 480-490): normalize a negative
index by adding the order length, bounds-check, resolve the single `order`
entry at that index, and return its value when the record is live, null
when the record is missing or tombstoned. -/
def lindex (st : Store) (key : String) (index : Int) :
    Except String (Option JsValue) :=
  match getListMeta st key with
  | .error e => .error e
  | .ok (_, order) =>
    if (order.length : Int) = 0 then .ok none
    else
      let normalized := if index < 0 then (order.length : Int) + index else index
      if normalized < 0 ∨ (order.length : Int) ≤ normalized then .ok none
      else
        match lookupRec st (listItemKey key (order.getD normalized.toNat "")) with
        | none => .ok none
        | some itemRecord =>
          if jsTruthy itemRecord.deletedAt then .ok none
          else .ok (some (deserializeValue itemRecord.type itemRecord.value))

/-- Live values of a list in `order` sequence: exactly what `lrange(k, 0, -1)`
of src/src/storage.ts (lines 458-478) collects, skipping missing and
tombstoned item records.  The last live element of a list is the last entry
of this sequence. -/
def liveOrderValues (st : Store) (key : String) (order : List String) :
    List JsValue :=
  order.filterMap (fun itemId =>
    match lookupRec st (listItemKey key itemId) with
    | none => none
    | some r =>
      if jsTruthy r.deletedAt then none
      else some (deserializeValue r.type r.value))

/-- List meta record for the C8 counterexample store: order is `[a, b]`. -/
def lindexMetaRec : RecordEntry :=
  { id := "m", key := "list:k", type := .list, createdAt := 0,
    updatedAt := .fin 1, deletedAt := none, conflictLoser := none,
    value := .vobj [("order", .varr [.vstr "a", .vstr "b"])] }

def lindexLiveItem : RecordEntry :=
  { id := "ia", key := "list:k:item:a", type := .string, createdAt := 0,
    updatedAt := .fin 1, deletedAt := none, conflictLoser := none,
    value := .vstr "x" }

def lindexDeadItem : RecordEntry :=
  { id := "ib", key := "list:k:item:b", type := .string, createdAt := 0,
    updatedAt := .fin 2, deletedAt := some 5, conflictLoser := none,
    value := .vstr "y" }

def lindexCexStore : Store :=
  [("list:k", lindexMetaRec),
   ("list:k:item:a", lindexLiveItem),
   ("list:k:item:b", lindexDeadItem)]

/-- Claim C8 counterexample: the list `k` has one live item (value `"x"`),
whose value is the last live element, yet `lindex(k, -1)` returns null
because the final entry of `order` references the tombstoned item `b`. -/
theorem lindex_last_tombstone_cex :
    getListMeta lindexCexStore "k" = .ok (some lindexMetaRec, ["a", "b"]) ∧
    liveOrderValues lindexCexStore "k" ["a", "b"] = [.vstr "x"] ∧
    lindex lindexCexStore "k" (-1) = .ok none ∧
    lindex lindexCexStore "k" (-1) ≠ .ok (some (.vstr "x")) := by
  refine ⟨rfl, rfl, rfl, fun h => ?_⟩
  rw [show lindex lindexCexStore "k" (-1) = Except.ok none from rfl] at h
  simp at h

/-- Claim C8 (amended): `lindex(k, -1)` resolves only the final entry of the
meta's `order` array: when that entry references a live item record, the
result is that record's value, which is then also the last live element of
the list; when the final entry references a missing or tombstoned record,
the result is null even if earlier live elements exist. -/
theorem lindex_neg_one_claim (st : Store) (k : String)
    (mr : Option RecordEntry) (os : List String) (a : String)
    (r : RecordEntry)
    (hmeta : getListMeta st k = .ok (mr, os ++ [a])) :
    (lookupRec st (listItemKey k a) = some r → jsTruthy r.deletedAt = false →
      lindex st k (-1) = .ok (some (deserializeValue r.type r.value)) ∧
      (liveOrderValues st k (os ++ [a])).getLast? =
        some (deserializeValue r.type r.value)) ∧
    (lookupRec st (listItemKey k a) = none → lindex st k (-1) = .ok none) ∧
    (lookupRec st (listItemKey k a) = some r → jsTruthy r.deletedAt = true →
      lindex st k (-1) = .ok none) := by
  have hlen : ((os ++ [a]).length : Int) = (os.length : Int) + 1 := by
    rw [List.length_append]
    push_cast
    simp
  have hL0 : ¬ ((os ++ [a]).length : Int) = 0 := by omega
  have hneg : (-1 : Int) < 0 := by norm_num
  have hnorm : (((os ++ [a]).length : Int) + -1).toNat = os.length := by omega
  have hgetD : (os ++ [a]).getD ((((os ++ [a]).length : Int) + -1).toNat) "" = a := by
    rw [hnorm]
    simp [List.getD_eq_getElem?_getD, List.getElem?_append_right (le_refl os.length)]
  have hbound : ¬ ((((os ++ [a]).length : Int) + -1) < 0 ∨
      ((os ++ [a]).length : Int) ≤ (((os ++ [a]).length : Int) + -1)) := by omega
  have hred : lindex st k (-1) =
      (match lookupRec st (listItemKey k a) with
       | none => Except.ok none
       | some itemRecord =>
         if jsTruthy itemRecord.deletedAt then Except.ok none
         else .ok (some (deserializeValue itemRecord.type itemRecord.value))) := by
    simp only [lindex, hmeta]
    rw [if_neg hL0, if_pos hneg, if_neg hbound, hgetD]
  refine ⟨fun hlook hdead => ⟨?_, ?_⟩, fun hlook => ?_, fun hlook hdead => ?_⟩
  · rw [hred, hlook]
    simp [hdead]
  · have hsplit : liveOrderValues st k (os ++ [a]) =
        liveOrderValues st k os ++ [deserializeValue r.type r.value] := by
      simp [liveOrderValues, List.filterMap_append, hlook, hdead]
    rw [hsplit, List.getLast?_concat]
  · rw [hred, hlook]
  · rw [hred, hlook]
    simp [hdead]

/-- List meta record for the C8 witness store: order is `[b, a]`, so the
final order entry references the live item. -/
def lindexWitMetaRec : RecordEntry :=
  { id := "m", key := "list:k", type := .list, createdAt := 0,
    updatedAt := .fin 1, deletedAt := none, conflictLoser := none,
    value := .vobj [("order", .varr [.vstr "b", .vstr "a"])] }

def lindexWitStore : Store :=
  [("list:k", lindexWitMetaRec),
   ("list:k:item:a", lindexLiveItem),
   ("list:k:item:b", lindexDeadItem)]

theorem lindex_neg_one_claim_witness :
    lindex lindexWitStore "k" (-1) = .ok (some (.vstr "x")) ∧
    (liveOrderValues lindexWitStore "k" (["b"] ++ ["a"])).getLast? =
      some (.vstr "x") :=
  (lindex_neg_one_claim lindexWitStore "k" (some lindexWitMetaRec) ["b"] "a"
    lindexLiveItem rfl).1 rfl rfl

end GitStorage

/-- The `SyncState` union of src/src/types.ts. -/
inductive SyncState where
  | idle
  | syncing
  | error
deriving DecidableEq, Repr

/-- The `SyncStatus` interface of src/src/types.ts. -/
structure SyncStatus where
  state : SyncState
  inFlight : Bool
  lastAt : Option Int
  lastError : Option String
deriving DecidableEq, Repr

/-- The `HistoryConfig` interface of src/src/types.ts. -/
structure HistoryConfig where
  enabled : Bool
  writeCountThreshold : Int
  writeBytesThreshold : Int
deriving DecidableEq, Repr

/-- The fields of a `GitStorage` instance read and written by the sync
coordinator and the compactor.  `configHistory` is `this.config.history` and
`history` is `this.history`: the constructor sets both to the same merged
object, and `setConfig` merges updates into both, but `maybeCompactHistory`
reads `enabled` from the former and the thresholds from the latter, so the
model keeps both. -/
structure CoordState where
  status : SyncStatus
  configHistory : HistoryConfig
  history : HistoryConfig
  writeCount : Int
  writeBytes : Int
  repoUrl : String
deriving DecidableEq, Repr

/-- External git operations performed by `compactHistory`; the transport
itself is out of scope, so only the sequence of calls is modelled. -/
inductive GitAction where
  | deleteGitDir
  | gitInit
  | addRemote
  | stage
  | commit (message : String)
  | push
deriving DecidableEq, Repr

/-- A `sync:start` / `sync:finish` / `sync:error` event emission with its
payload `{ at, reason, status }` (`at` is called `atTime` here). -/
structure SyncEvent where
  name : String
  atTime : Int
  reason : String
  status : SyncStatus
deriving DecidableEq, Repr

/-- The `{ success, error? }` result of `sync`. -/
structure SyncResult where
  success : Bool
  error : Option String
deriving DecidableEq, Repr

/-- Everything one `sync` call produces: the updated instance state, the
events emitted, the returned result, and the git operations performed by the
compactor. -/
structure SyncOut where
  state : CoordState
  events : List SyncEvent
  result : SyncResult
  gitActions : List GitAction
deriving DecidableEq, Repr

/-- Outcome of the git pipeline `syncWithGit` (out-of-scope transport):
either it returns, or it throws with a message. -/
inductive PipelineOutcome where
  | ok
  | fail (message : String)
deriving DecidableEq, Repr

namespace GitStorage

/-- Embedding of `compactHistory` of src/src/storage.ts (lines 914-939): returns at once
when no remote URL is configured (`!this.config.repoUrl`, the empty string
being falsy); otherwise deletes `.git` when present, re-initializes, re-adds
the remote, stages, commits `compact history` and force-pushes.
`hasGitDir` is the filesystem answer for the `.git` existence probe. -/
def compactHistory (hasGitDir : Bool) (s : CoordState) : List GitAction :=
  if s.repoUrl = "" then []
  else
    (if hasGitDir then [GitAction.deleteGitDir] else []) ++
    [GitAction.gitInit, GitAction.addRemote, GitAction.stage,
     GitAction.commit "compact history", GitAction.push]

/-- Embedding of `maybeCompactHistory` of src/src/storage.ts (lines 558-568): skip unless
`config.history.enabled`; skip when both counters are strictly below their
thresholds; otherwise run `compactHistory` and reset both counters. -/
def maybeCompactHistory (hasGitDir : Bool) (s : CoordState) :
    CoordState × List GitAction :=
  if !s.configHistory.enabled then (s, [])
  else if s.writeCount < s.history.writeCountThreshold ∧
      s.writeBytes < s.history.writeBytesThreshold then (s, [])
  else ({ s with writeCount := 0, writeBytes := 0 }, compactHistory hasGitDir s)

/-- Embedding of `sync` of src/src/storage.ts (lines 536-556), with the out-of-scope git
pipeline abstracted into its `PipelineOutcome` and every `now()` call during
the round passed as `t`.  The in-flight guard returns the dedicated error
without touching state or emitting events; on success the status becomes
idle with `lastAt = t`, `sync:finish` is emitted and the compactor runs; on
failure the status becomes error with the message and `sync:error` is
emitted. -/
def sync (hasGitDir : Bool) (t : Int) (reason : String)
    (outcome : PipelineOutcome) (s : CoordState) : SyncOut :=
  if s.status.inFlight then
    { state := s, events := [],
      result := { success := false, error := some "sync already in flight" },
      gitActions := [] }
  else
    let st1 : SyncStatus :=
      { s.status with state := .syncing, inFlight := true, lastError := none }
    match outcome with
    | .ok =>
      let st2 : SyncStatus :=
        { state := .idle, inFlight := false, lastAt := some t, lastError := none }
      let s2 : CoordState := { s with status := st2 }
      let compacted := maybeCompactHistory hasGitDir s2
      { state := compacted.1,
        events :=
          [{ name := "sync:start", atTime := t, reason := reason, status := st1 },
           { name := "sync:finish", atTime := t, reason := reason, status := st2 }],
        result := { success := true, error := none },
        gitActions := compacted.2 }
    | .fail message =>
      let st2 : SyncStatus :=
        { state := .error, inFlight := false, lastAt := st1.lastAt,
          lastError := some message }
      { state := { s with status := st2 },
        events :=
          [{ name := "sync:start", atTime := t, reason := reason, status := st1 },
           { name := "sync:error", atTime := t, reason := reason, status := st2 }],
        result := { success := false, error := some message },
        gitActions := [] }

theorem maybeCompact_not_enabled (hg : Bool) (x : CoordState)
    (he : x.configHistory.enabled = false) :
    maybeCompactHistory hg x = (x, []) := by
  simp [maybeCompactHistory, he]

theorem maybeCompact_below (hg : Bool) (x : CoordState)
    (he : x.configHistory.enabled = true)
    (h1 : x.writeCount < x.history.writeCountThreshold)
    (h2 : x.writeBytes < x.history.writeBytesThreshold) :
    maybeCompactHistory hg x = (x, []) := by
  simp [maybeCompactHistory, he, h1, h2]

theorem maybeCompact_fire (hg : Bool) (x : CoordState)
    (he : x.configHistory.enabled = true)
    (hth : x.history.writeCountThreshold ≤ x.writeCount ∨
      x.history.writeBytesThreshold ≤ x.writeBytes) :
    maybeCompactHistory hg x =
      ({ x with writeCount := 0, writeBytes := 0 }, compactHistory hg x) := by
  have hb : ¬ (x.writeCount < x.history.writeCountThreshold ∧
      x.writeBytes < x.history.writeBytesThreshold) := by omega
  simp [maybeCompactHistory, he, hb]

theorem compactHistory_ne_nil_iff (hg : Bool) (x : CoordState) :
    compactHistory hg x ≠ [] ↔ x.repoUrl ≠ "" := by
  by_cases hr : x.repoUrl = "" <;> simp [compactHistory, hr]

/-- Combined behavior of `maybeCompactHistory`: the compactor performs git
operations exactly when history is enabled, a counter has reached its
threshold, and a remote is configured; both counters are left unchanged when
strictly below their thresholds, and reset to zero whenever git operations
were performed; no git operations happen without a remote. -/
theorem maybeCompact_claim_core (hg : Bool) (x : CoordState) :
    ((maybeCompactHistory hg x).2 ≠ [] ↔
      (x.configHistory.enabled = true ∧
       (x.history.writeCountThreshold ≤ x.writeCount ∨
        x.history.writeBytesThreshold ≤ x.writeBytes) ∧
       x.repoUrl ≠ "")) ∧
    (x.configHistory.enabled = true →
     x.writeCount < x.history.writeCountThreshold →
     x.writeBytes < x.history.writeBytesThreshold →
      (maybeCompactHistory hg x).2 = [] ∧
      (maybeCompactHistory hg x).1.writeCount = x.writeCount ∧
      (maybeCompactHistory hg x).1.writeBytes = x.writeBytes) ∧
    ((maybeCompactHistory hg x).2 ≠ [] →
      (maybeCompactHistory hg x).1.writeCount = 0 ∧
      (maybeCompactHistory hg x).1.writeBytes = 0) ∧
    (x.repoUrl = "" → (maybeCompactHistory hg x).2 = []) := by
  cases he : x.configHistory.enabled with
  | false =>
    rw [maybeCompact_not_enabled hg x he]
    refine ⟨?_, fun hcontra _ _ => ?_, fun hne => absurd rfl hne, fun _ => rfl⟩
    · constructor
      · intro hne
        exact absurd rfl hne
      · rintro ⟨hc, _, _⟩
        exact absurd hc (by simp)
    · exact absurd hcontra (by simp)
  | true =>
    by_cases hb : x.writeCount < x.history.writeCountThreshold ∧
        x.writeBytes < x.history.writeBytesThreshold
    · rw [maybeCompact_below hg x he hb.1 hb.2]
      refine ⟨?_, fun _ _ _ => ⟨rfl, rfl, rfl⟩, fun hne => absurd rfl hne,
        fun _ => rfl⟩
      constructor
      · intro hne
        exact absurd rfl hne
      · rintro ⟨_, hth, _⟩
        omega
    · have hth : x.history.writeCountThreshold ≤ x.writeCount ∨
          x.history.writeBytesThreshold ≤ x.writeBytes := by omega
      rw [maybeCompact_fire hg x he hth]
      refine ⟨?_, fun _ hc1 hc2 => absurd hth (by omega),
        fun _ => ⟨rfl, rfl⟩, fun hr => ?_⟩
      · rw [compactHistory_ne_nil_iff]
        exact ⟨fun hr => ⟨rfl, hth, hr⟩, fun h3 => h3.2.2⟩
      · simp [compactHistory, hr]

/-- Claim C3: a `sync` call made while a sync is already in flight returns
`{success: false, error: "sync already in flight"}`, leaves the stored
status untouched, emits no event and performs no git operation. -/
theorem sync_in_flight_claim (hg : Bool) (t : Int) (reason : String)
    (outcome : PipelineOutcome) (s : CoordState)
    (h : s.status.inFlight = true) :
    sync hg t reason outcome s =
      { state := s, events := [],
        result := { success := false, error := some "sync already in flight" },
        gitActions := [] } := by
  simp [sync, h]

def inFlightState : CoordState :=
  { status := { state := .syncing, inFlight := true, lastAt := some 7,
                lastError := none },
    configHistory := { enabled := true, writeCountThreshold := 200,
                       writeBytesThreshold := 5242880 },
    history := { enabled := true, writeCountThreshold := 200,
                 writeBytesThreshold := 5242880 },
    writeCount := 3, writeBytes := 10, repoUrl := "" }

theorem sync_in_flight_claim_witness :
    sync false 1 "manual" .ok inFlightState =
      { state := inFlightState, events := [],
        result := { success := false, error := some "sync already in flight" },
        gitActions := [] } :=
  sync_in_flight_claim false 1 "manual" .ok inFlightState rfl

/-- Claim C5: after a successful sync pipeline, compaction is performed
exactly when history is enabled and a write counter has reached its
threshold (and a remote exists to push to); when history is enabled and both
counters are strictly below their thresholds nothing happens and the
counters are untouched; whenever compaction git operations are performed
both counters are reset to zero; compaction is skipped entirely without a
remote URL. -/
theorem sync_compaction_claim (hg : Bool) (t : Int) (reason : String)
    (s : CoordState) (h : s.status.inFlight = false) :
    (sync hg t reason .ok s).result.success = true ∧
    ((sync hg t reason .ok s).gitActions ≠ [] ↔
      (s.configHistory.enabled = true ∧
       (s.history.writeCountThreshold ≤ s.writeCount ∨
        s.history.writeBytesThreshold ≤ s.writeBytes) ∧
       s.repoUrl ≠ "")) ∧
    (s.configHistory.enabled = true →
     s.writeCount < s.history.writeCountThreshold →
     s.writeBytes < s.history.writeBytesThreshold →
      (sync hg t reason .ok s).gitActions = [] ∧
      (sync hg t reason .ok s).state.writeCount = s.writeCount ∧
      (sync hg t reason .ok s).state.writeBytes = s.writeBytes) ∧
    ((sync hg t reason .ok s).gitActions ≠ [] →
      (sync hg t reason .ok s).state.writeCount = 0 ∧
      (sync hg t reason .ok s).state.writeBytes = 0) ∧
    (s.repoUrl = "" → (sync hg t reason .ok s).gitActions = []) := by
  have hres : (sync hg t reason PipelineOutcome.ok s).result.success = true := by
    simp [sync, h]
  have hacts : (sync hg t reason PipelineOutcome.ok s).gitActions =
      (maybeCompactHistory hg { s with status :=
        { state := SyncState.idle, inFlight := false, lastAt := some t,
          lastError := none } }).2 := by
    simp [sync, h]
  have hstate : (sync hg t reason PipelineOutcome.ok s).state =
      (maybeCompactHistory hg { s with status :=
        { state := SyncState.idle, inFlight := false, lastAt := some t,
          lastError := none } }).1 := by
    simp [sync, h]
  obtain ⟨hiff, hbelow, hreset, hskip⟩ := maybeCompact_claim_core hg
    { s with status := { state := SyncState.idle, inFlight := false,
                         lastAt := some t, lastError := none } }
  refine ⟨hres, ?_, fun he h1 h2 => ?_, fun hne => ?_, fun hr => ?_⟩
  · rw [hacts]
    exact hiff
  · rw [hacts, hstate]
    exact hbelow he h1 h2
  · rw [hacts] at hne
    rw [hstate]
    exact hreset hne
  · rw [hacts]
    exact hskip hr

def syncWitState : CoordState :=
  { status := { state := .idle, inFlight := false, lastAt := none,
                lastError := none },
    configHistory := { enabled := true, writeCountThreshold := 3,
                       writeBytesThreshold := 100 },
    history := { enabled := true, writeCountThreshold := 3,
                 writeBytesThreshold := 100 },
    writeCount := 5, writeBytes := 0,
    repoUrl := "https://example.com/repo.git" }

theorem sync_compaction_claim_witness :
    (sync false 1 "manual" .ok syncWitState).gitActions ≠ [] ∧
    (sync false 1 "manual" .ok syncWitState).state.writeCount = 0 ∧
    (sync false 1 "manual" .ok syncWitState).state.writeBytes = 0 := by
  have h := sync_compaction_claim false 1 "manual" syncWitState rfl
  have hne : (sync false 1 "manual" PipelineOutcome.ok syncWitState).gitActions ≠ [] :=
    h.2.1.mpr ⟨rfl, Or.inl (by decide), by decide⟩
  exact ⟨hne, (h.2.2.2.1 hne).1, (h.2.2.2.1 hne).2⟩

/-- Claim C9: when a sync succeeds with history enabled, a threshold crossed
and no remote URL configured, the compaction body performs no git operation
yet both accumulated counters are still reset to zero. -/
theorem sync_compact_no_remote_claim (hg : Bool) (t : Int) (reason : String)
    (s : CoordState) (h : s.status.inFlight = false)
    (he : s.configHistory.enabled = true)
    (hth : s.history.writeCountThreshold ≤ s.writeCount ∨
      s.history.writeBytesThreshold ≤ s.writeBytes)
    (hr : s.repoUrl = "") :
    (sync hg t reason .ok s).result.success = true ∧
    (sync hg t reason .ok s).gitActions = [] ∧
    (sync hg t reason .ok s).state.writeCount = 0 ∧
    (sync hg t reason .ok s).state.writeBytes = 0 := by
  have hres : (sync hg t reason PipelineOutcome.ok s).result.success = true := by
    simp [sync, h]
  have hacts : (sync hg t reason PipelineOutcome.ok s).gitActions =
      (maybeCompactHistory hg { s with status :=
        { state := SyncState.idle, inFlight := false, lastAt := some t,
          lastError := none } }).2 := by
    simp [sync, h]
  have hstate : (sync hg t reason PipelineOutcome.ok s).state =
      (maybeCompactHistory hg { s with status :=
        { state := SyncState.idle, inFlight := false, lastAt := some t,
          lastError := none } }).1 := by
    simp [sync, h]
  have hfire := maybeCompact_fire hg
    { s with status := { state := SyncState.idle, inFlight := false,
                         lastAt := some t, lastError := none } } he hth
  refine ⟨hres, ?_, ?_, ?_⟩
  · rw [hacts, hfire]
    simp [compactHistory, hr]
  · rw [hstate, hfire]
  · rw [hstate, hfire]

def noRemoteState : CoordState :=
  { status := { state := .idle, inFlight := false, lastAt := none,
                lastError := none },
    configHistory := { enabled := true, writeCountThreshold := 3,
                       writeBytesThreshold := 100 },
    history := { enabled := true, writeCountThreshold := 3,
                 writeBytesThreshold := 100 },
    writeCount := 5, writeBytes := 0, repoUrl := "" }

theorem sync_compact_no_remote_claim_witness :
    (sync false 1 "manual" .ok noRemoteState).result.success = true ∧
    (sync false 1 "manual" .ok noRemoteState).gitActions = [] ∧
    (sync false 1 "manual" .ok noRemoteState).state.writeCount = 0 ∧
    (sync false 1 "manual" .ok noRemoteState).state.writeBytes = 0 :=
  sync_compact_no_remote_claim false 1 "manual" noRemoteState rfl rfl
    (Or.inl (by decide)) rfl

end GitStorage

/-- A bucket file as the filesystem presents it to `readBucket`: absent,
present with contents that `JSON.parse` rejects, or present and parsed into
a record map. -/
inductive BucketFile where
  | absent
  | unparseable (raw : String)
  | parsed (entries : List (String × RecordEntry))

/-- What one `readBucket` call produces: the returned map together with the
messages passed to the configured logger during the call. -/
structure ReadBucketResult where
  data : List (String × RecordEntry)
  logMessages : List String

namespace GitStorage

/-- Embedding of `readBucket` of src/src/storage.ts (lines 137-145): `readFile` and
`JSON.parse` inside a try block whose catch returns `{}`.  The catch block
contains no call to `this.config.logger` (nothing in `readBucket` does), so
the log-message list is empty on every path. -/
def readBucket : BucketFile → ReadBucketResult
  | .absent => { data := [], logMessages := [] }
  | .unparseable _ => { data := [], logMessages := [] }
  | .parsed entries => { data := entries, logMessages := [] }

/-- Claim C6, evaluated at the failing input of test/corrupt-bucket.test.ts:
reading a bucket file holding `{ invalid json` returns the empty map without
throwing, and so does reading an absent file, but the configured log hook
receives no message at all — the repo's own corrupt-bucket test expects a
`readBucket failed` log entry here. -/
theorem readBucket_corrupt_no_log :
    readBucket (BucketFile.unparseable "\x7b invalid json") =
      { data := [], logMessages := [] } ∧
    readBucket BucketFile.absent = { data := [], logMessages := [] } ∧
    (readBucket (BucketFile.unparseable "\x7b invalid json")).logMessages = [] :=
  ⟨rfl, rfl, rfl⟩

end GitStorage

/-- The `PendingLoser` queue entry of src/src/storage.ts (lines 53-57). -/
structure PendingLoser where
  listKey : String
  winnerItemId : String
  record : RecordEntry

namespace GitStorage

/-- Sign of the JavaScript comparator difference
`(a.updatedAt ?? 0) - (b.updatedAt ?? 0)` (src/src/storage.ts lines
726-727); `updatedAt` is a required number so `?? 0` is the identity.  Two
finite values compare numerically; a non-finite operand gives the sign of
the corresponding infinite difference; `none` stands for a `NaN` difference
(a `NaN` operand, or ∞ - ∞). -/
def jsDiffSign : JsNum → JsNum → Option Ordering
  | .fin a, .fin b => some (compare a b)
  | .fin _, .inf => some .lt
  | .fin _, .ninf => some .gt
  | .inf, .fin _ => some .gt
  | .ninf, .fin _ => some .lt
  | .inf, .ninf => some .gt
  | .ninf, .inf => some .lt
  | _, _ => none

/-- The sort comparator of `applyPendingLosers` (src/src/storage.ts lines
725-729): when the `updatedAt` difference is nonzero its sign decides
(`if (diff !== 0) return diff`), and only a difference that is exactly 0
falls through to the id tie-break (`localeCompare`, which on the ASCII ids
in use coincides with lexicographic order).  A `NaN` difference is also
`!== 0` and is returned as the comparator result; a spec-conforming stable
sort treats a `NaN` comparator value neither as less nor as greater, i.e.
as equality. -/
def pendingCmp (a b : PendingLoser) : Ordering :=
  match jsDiffSign a.record.updatedAt b.record.updatedAt with
  | some .eq => compare a.record.id b.record.id
  | some o => o
  | none => .eq

/-- The ascending `(updatedAt, id)` sort of the pending losers
(`[...pending].sort(...)`, a stable sort). -/
def sortLosers (pending : List PendingLoser) : List PendingLoser :=
  pending.mergeSort (fun a b => pendingCmp a b != Ordering.gt)

/-- JavaScript object spread update `{ ...fields, key: v }`: overwrite in
place when the key exists, else append. -/
def setObjField : List (String × JsValue) → String → JsValue →
    List (String × JsValue)
  | [], k, v => [(k, v)]
  | (k0, v0) :: rest, k, v =>
    if k0 == k then (k0, v) :: rest else (k0, v0) :: setObjField rest k v

/-- Embedding of `markConflictLoserRecord` of src/src/storage.ts (lines 235-244): tag the
record with `conflictLoser = { winnerId }`, and when it is an object-typed
record holding a (non-null, non-array) object value, also inject
`__conflictLoser: true` into the value. -/
def markConflictLoserRecord (record : RecordEntry) (winnerId : String) :
    RecordEntry :=
  let next := { record with conflictLoser := some winnerId }
  match next.type, next.value with
  | ValueType.object, JsValue.vobj fields =>
    { next with
      value := JsValue.vobj (setObjField fields "__conflictLoser" (JsValue.vbool true)) }
  | _, _ => next

/-- Embedding of `Array.prototype.indexOf`: index of the first occurrence, or -1. -/
def jsIndexOf (xs : List String) (x : String) : Int :=
  match xs with
  | [] => -1
  | y :: rest =>
    if y == x then 0
    else
      let r := jsIndexOf rest x
      if r = -1 then -1 else r + 1

/-- Embedding of `buildListMetaRecord` of src/src/storage.ts (lines 223-233), with
`now()` passed as `t` and the id that `makeId()` would mint passed as
`mintedId` (it is only consumed when no existing meta record is supplied). -/
def buildListMetaRecord (key : String) (order : List String)
    (existing : Option RecordEntry) (mintedId : String) (t : Int) :
    RecordEntry :=
  { id := (existing.map (·.id)).getD mintedId,
    key := key,
    type := .list,
    createdAt := (existing.map (·.createdAt)).getD t,
    updatedAt := .fin t,
    deletedAt := none,
    conflictLoser := none,
    value := JsValue.vobj [("order", JsValue.varr (order.map JsValue.vstr))] }

/-- One iteration of the `applyPendingLosers` loop (src/src/storage.ts lines
731-746): mint a fresh item id, rewrite the loser under the new list-item
key with the conflict marker, persist it, re-read the list meta, splice the
new id in immediately after the winner (or append when the winner is
absent), and persist the meta.  The id supply `ids` stands for
`crypto.randomUUID()`, consumed one index per mint; the state carries the
next unconsumed index.  `getListMeta` may raise WRONGTYPE, which propagates
out of the loop as in the source. -/
def applyOneLoser (ids : Nat → String) (t : Int) (stn : Store × Nat)
    (e : PendingLoser) : Except String (Store × Nat) :=
  let newItemId := ids stn.2
  let newKey := listItemKey e.listKey newItemId
  let loserRecord :=
    markConflictLoserRecord { e.record with key := newKey } e.winnerItemId
  let st1 := setRec stn.1 loserRecord
  match getListMeta st1 e.listKey with
  | .error msg => .error msg
  | .ok (metaRecord, order) =>
    let winnerIndex := jsIndexOf order e.winnerItemId
    let order2 :=
      if winnerIndex = -1 then order ++ [newItemId]
      else
        order.take (winnerIndex.toNat + 1) ++
          newItemId :: order.drop (winnerIndex.toNat + 1)
    let newMeta :=
      buildListMetaRecord (listMetaKey e.listKey) order2 metaRecord
        (ids (stn.2 + 1)) t
    .ok (setRec st1 newMeta, if metaRecord.isSome then stn.2 + 1 else stn.2 + 2)

/-- Embedding of `applyPendingLosers` of src/src/storage.ts (lines 723-747): return at
once on an empty queue, otherwise sort ascending by `(updatedAt, id)` and
process the sorted list from its last element down to its first. -/
def applyPendingLosers (ids : Nat → String) (t : Int) (st : Store) (n : Nat)
    (pending : List PendingLoser) : Except String (Store × Nat) :=
  if pending.length = 0 then .ok (st, n)
  else (sortLosers pending).reverse.foldlM (applyOneLoser ids t) (st, n)

/-- The ids minted for `m` consecutive fresh-id draws starting at index `n`. -/
def idsSeq (ids : Nat → String) : Nat → Nat → List String
  | _, 0 => []
  | n, m + 1 => ids n :: idsSeq ids (n + 1) m

end GitStorage

theorem lookupRec_setRec_ne (st : Store) (r : RecordEntry) (k : String)
    (h : k ≠ r.key) : lookupRec (setRec st r) k = lookupRec st k := by
  have h' : ¬ r.key = k := fun hh => h hh.symm
  induction st with
  | nil => simp [setRec, lookupRec, h']
  | cons hd tl ih =>
    obtain ⟨k0, x⟩ := hd
    by_cases h0 : k0 = r.key
    · subst h0
      simp [setRec, lookupRec, h']
    · simp [setRec, lookupRec, h0, ih]

theorem listItemKey_ne_listMetaKey (L x : String) :
    GitStorage.listItemKey L x ≠ GitStorage.listMetaKey L := by
  intro h
  have hdata := congrArg String.data h
  simp only [GitStorage.listItemKey, GitStorage.listMetaKey,
    String.data_append, List.append_assoc] at hdata
  have h1 := List.append_cancel_left hdata
  have hlen := congrArg List.length h1
  simp only [List.length_append] at hlen
  simp at hlen

theorem listItemKey_inj (L x y : String)
    (h : GitStorage.listItemKey L x = GitStorage.listItemKey L y) : x = y := by
  have hdata := congrArg String.data h
  simp only [GitStorage.listItemKey, String.data_append,
    List.append_assoc] at hdata
  have h1 := List.append_cancel_left hdata
  have h2 := List.append_cancel_left h1
  have h3 := List.append_cancel_left h2
  exact congrArg String.mk h3

theorem extractOrder_build (order : List String) :
    GitStorage.extractOrder
      (JsValue.vobj [("order", JsValue.varr (order.map JsValue.vstr))]) =
      order := by
  have h0 : GitStorage.extractOrder
      (JsValue.vobj [("order", JsValue.varr (order.map JsValue.vstr))]) =
      (order.map JsValue.vstr).filterMap (fun x =>
        match x with
        | JsValue.vstr s => some s
        | _ => none) := rfl
  rw [h0, List.filterMap_map]
  rw [show ((fun x : JsValue =>
      match x with
      | JsValue.vstr s => some s
      | _ => none) ∘ JsValue.vstr) = some from rfl]
  exact List.filterMap_some order

theorem jsIndexOf_first (pre : List String) (w : String) (rest : List String)
    (h : w ∉ pre) :
    GitStorage.jsIndexOf (pre ++ w :: rest) w = (pre.length : Int) := by
  induction pre with
  | nil => simp [GitStorage.jsIndexOf]
  | cons y pre' ih =>
    have hy : (y == w) = false := by
      simp only [beq_eq_false_iff_ne, ne_eq]
      intro he
      exact h (he ▸ List.mem_cons_self y pre')
    have hih := ih (fun hm => h (List.mem_cons_of_mem y hm))
    have hne : ¬ GitStorage.jsIndexOf (pre' ++ w :: rest) w = -1 := by
      rw [hih]
      omega
    rw [List.cons_append]
    rw [show GitStorage.jsIndexOf (y :: (pre' ++ w :: rest)) w =
        (if (y == w) = true then 0
         else if GitStorage.jsIndexOf (pre' ++ w :: rest) w = -1 then -1
         else GitStorage.jsIndexOf (pre' ++ w :: rest) w + 1) from rfl]
    simp only [hy, Bool.false_eq_true, if_false, if_neg hne, hih]
    simp only [List.length_cons]
    push_cast
    ring

theorem idsSeq_succ_head (ids : Nat → String) (n m : Nat) :
    GitStorage.idsSeq ids n (m + 1) = ids n :: GitStorage.idsSeq ids (n + 1) m :=
  rfl

theorem idsSeq_length (ids : Nat → String) (n m : Nat) :
    (GitStorage.idsSeq ids n m).length = m := by
  induction m generalizing n with
  | zero => rfl
  | succ m ih => simp [GitStorage.idsSeq, ih]

theorem markConflictLoserRecord_key (r : RecordEntry) (w : String) :
    (GitStorage.markConflictLoserRecord r w).key = r.key := by
  obtain ⟨i, k, ty, ca, ua, da, cl, v⟩ := r
  cases ty <;> cases v <;> rfl

theorem take_append_succ {α : Type} (pre : List α) (a : α) (rest : List α) :
    (pre ++ a :: rest).take (pre.length + 1) = pre ++ [a] := by
  induction pre with
  | nil => simp
  | cons x pre' ih => simp [ih]

theorem drop_append_succ {α : Type} (pre : List α) (a : α) (rest : List α) :
    (pre ++ a :: rest).drop (pre.length + 1) = rest := by
  induction pre with
  | nil => simp
  | cons x pre' ih => simp [ih]

theorem applyOneLoser_step (ids : Nat → String) (t : Int) (L w : String)
    (e : PendingLoser) (st : Store) (n : Nat) (m : RecordEntry)
    (pre mid post : List String)
    (he1 : e.listKey = L) (he2 : e.winnerItemId = w)
    (hm : lookupRec st (GitStorage.listMetaKey L) = some m)
    (hdel : jsTruthy m.deletedAt = false)
    (htype : m.type = ValueType.list)
    (horder : GitStorage.extractOrder m.value = pre ++ (w :: (mid ++ post)))
    (hwpre : w ∉ pre) :
    GitStorage.applyOneLoser ids t (st, n) e =
      .ok (setRec (setRec st (GitStorage.markConflictLoserRecord
            { e.record with key := GitStorage.listItemKey L (ids n) } w))
          (GitStorage.buildListMetaRecord (GitStorage.listMetaKey L)
            (pre ++ (w :: (ids n :: (mid ++ post)))) (some m) (ids (n + 1)) t),
        n + 1) := by
  have hkey : (GitStorage.markConflictLoserRecord
      { e.record with key := GitStorage.listItemKey L (ids n) } w).key =
      GitStorage.listItemKey L (ids n) := markConflictLoserRecord_key _ _
  have hlook1 : lookupRec (setRec st (GitStorage.markConflictLoserRecord
      { e.record with key := GitStorage.listItemKey L (ids n) } w))
      (GitStorage.listMetaKey L) = some m := by
    rw [lookupRec_setRec_ne st _ _
      (by rw [hkey]; exact (listItemKey_ne_listMetaKey L (ids n)).symm)]
    exact hm
  have hmeta1 : GitStorage.getListMeta
      (setRec st (GitStorage.markConflictLoserRecord
        { e.record with key := GitStorage.listItemKey L (ids n) } w)) L =
      .ok (some m, pre ++ (w :: (mid ++ post))) := by
    simp only [GitStorage.getListMeta, hlook1]
    rw [if_neg (by simp [hdel]), if_neg (by simp [htype]), horder]
  simp only [GitStorage.applyOneLoser, he1, he2, hmeta1]
  rw [jsIndexOf_first pre w (mid ++ post) hwpre]
  rw [if_neg (show ¬((pre.length : Int) = -1) by omega)]
  simp only [Int.toNat_natCast]
  rw [take_append_succ, drop_append_succ]
  simp [List.append_assoc]

theorem applyLosers_run (ids : Nat → String) (t : Int) (L w : String)
    (es : List PendingLoser) :
    ∀ (st : Store) (n : Nat) (m : RecordEntry) (pre mid post : List String),
    (∀ e ∈ es, e.listKey = L ∧ e.winnerItemId = w) →
    lookupRec st (GitStorage.listMetaKey L) = some m →
    jsTruthy m.deletedAt = false →
    m.type = ValueType.list →
    GitStorage.extractOrder m.value = pre ++ (w :: (mid ++ post)) →
    w ∉ pre →
    ∃ st' m',
      es.foldlM (GitStorage.applyOneLoser ids t) (st, n) =
        .ok (st', n + es.length) ∧
      lookupRec st' (GitStorage.listMetaKey L) = some m' ∧
      jsTruthy m'.deletedAt = false ∧
      m'.type = ValueType.list ∧
      GitStorage.extractOrder m'.value =
        pre ++ (w :: (((GitStorage.idsSeq ids n es.length).reverse ++ mid) ++ post)) ∧
      (∀ k, k ≠ GitStorage.listMetaKey L →
        (∀ i, i < es.length → k ≠ GitStorage.listItemKey L (ids (n + i))) →
        lookupRec st' k = lookupRec st k) ∧
      (∀ j, j < es.length →
        (∀ i, i < es.length → j < i → ids (n + i) ≠ ids (n + j)) →
        lookupRec st' (GitStorage.listItemKey L (ids (n + j))) =
          (es[j]?).map (fun e0 =>
            GitStorage.markConflictLoserRecord
              { e0.record with key := GitStorage.listItemKey L (ids (n + j)) } w)) := by
  induction es with
  | nil =>
    intro st n m pre mid post hall hm hdel htype horder hwpre
    exact ⟨st, m, rfl, hm, hdel, htype, horder, fun k _ _ => rfl,
      fun j hj _ => absurd hj (by simp)⟩
  | cons e es' ih =>
    intro st n m pre mid post hall hm hdel htype horder hwpre
    obtain ⟨he1, he2⟩ := hall e (List.mem_cons_self e es')
    have hall' : ∀ e0 ∈ es', e0.listKey = L ∧ e0.winnerItemId = w :=
      fun e0 h0 => hall e0 (List.mem_cons_of_mem e h0)
    have hstep := applyOneLoser_step ids t L w e st n m pre mid post
      he1 he2 hm hdel htype horder hwpre
    set st1 := setRec st (GitStorage.markConflictLoserRecord
      { e.record with key := GitStorage.listItemKey L (ids n) } w) with hst1
    set newMeta := GitStorage.buildListMetaRecord (GitStorage.listMetaKey L)
      (pre ++ (w :: (ids n :: (mid ++ post)))) (some m) (ids (n + 1)) t with hnm
    set st2 := setRec st1 newMeta with hst2
    have hm2 : lookupRec st2 (GitStorage.listMetaKey L) = some newMeta := by
      rw [hst2]
      exact lookupRec_setRec_self st1 newMeta
    have hdel2 : jsTruthy newMeta.deletedAt = false := rfl
    have htype2 : newMeta.type = ValueType.list := rfl
    have horder2 : GitStorage.extractOrder newMeta.value =
        pre ++ (w :: ((ids n :: mid) ++ post)) :=
      extractOrder_build (pre ++ (w :: (ids n :: (mid ++ post))))
    obtain ⟨st', m', hfold', hm', hdel', htype', horder', hframe', hitem'⟩ :=
      ih st2 (n + 1) newMeta pre (ids n :: mid) post hall' hm2 hdel2 htype2
        horder2 hwpre
    refine ⟨st', m', ?_, hm', hdel', htype', ?_, ?_, ?_⟩
    · rw [List.foldlM_cons, hstep]
      show es'.foldlM (GitStorage.applyOneLoser ids t) (st2, n + 1) =
        .ok (st', n + (es'.length + 1))
      rw [hfold']
      have hne : n + 1 + es'.length = n + (es'.length + 1) := by omega
      rw [hne]
    · rw [horder']
      simp only [List.length_cons, idsSeq_succ_head, List.reverse_cons,
        List.append_assoc, List.singleton_append]
    · intro k hk hki
      have hk0 : k ≠ GitStorage.listItemKey L (ids n) := hki 0 (by simp)
      have hki' : ∀ i, i < es'.length →
          k ≠ GitStorage.listItemKey L (ids (n + 1 + i)) := by
        intro i hi
        have h2 := hki (i + 1) (by simp only [List.length_cons]; omega)
        have hx : n + 1 + i = n + (i + 1) := by omega
        rw [hx]
        exact h2
      rw [hframe' k hk hki']
      rw [hst2, lookupRec_setRec_ne st1 newMeta k
        (by rw [hnm]; exact hk)]
      rw [hst1, lookupRec_setRec_ne st _ k
        (by rw [markConflictLoserRecord_key]; exact hk0)]
    · intro j hj hfresh
      cases j with
      | zero =>
        have hk : GitStorage.listItemKey L (ids (n + 0)) ≠
            GitStorage.listMetaKey L := listItemKey_ne_listMetaKey L _
        have hki' : ∀ i, i < es'.length →
            GitStorage.listItemKey L (ids (n + 0)) ≠
              GitStorage.listItemKey L (ids (n + 1 + i)) := by
          intro i hi heq
          have hid := listItemKey_inj L _ _ heq
          have hf := hfresh (i + 1) (by simp only [List.length_cons]; omega)
            (by omega)
          have hx : n + (i + 1) = n + 1 + i := by omega
          rw [hx] at hf
          exact hf hid.symm
        rw [hframe' _ hk hki']
        rw [hst2, lookupRec_setRec_ne st1 newMeta _ (by rw [hnm]; exact hk)]
        rw [hst1]
        have hself := lookupRec_setRec_self st
          (GitStorage.markConflictLoserRecord
            { e.record with key := GitStorage.listItemKey L (ids n) } w)
        rw [markConflictLoserRecord_key] at hself
        simp only [List.getElem?_cons_zero, Option.map_some]
        exact hself
      | succ j' =>
        have hj' : j' < es'.length := by
          simp only [List.length_cons] at hj
          omega
        have hfresh' : ∀ i, i < es'.length → j' < i →
            ids (n + 1 + i) ≠ ids (n + 1 + j') := by
          intro i hi hji
          have hf := hfresh (i + 1) (by simp only [List.length_cons]; omega)
            (by omega)
          have h1 : n + (i + 1) = n + 1 + i := by omega
          have h2 : n + (j' + 1) = n + 1 + j' := by omega
          rw [h1, h2] at hf
          exact hf
        have hthis := hitem' j' hj' hfresh'
        have hne : n + 1 + j' = n + (j' + 1) := by omega
        rw [hne] at hthis
        rw [List.getElem?_cons_succ]
        exact hthis

/-- A comparison function that is a total preorder everywhere and agrees
with the JavaScript comparator on losers whose `updatedAt` is finite (the
only records a merge round can produce, since bucket JSON cannot encode
non-finite numbers): ascending clamped `updatedAt`, then ascending id. -/
def pendingLE (a b : PendingLoser) : Bool :=
  if a.record.updatedAt.finClamp < b.record.updatedAt.finClamp then true
  else if b.record.updatedAt.finClamp < a.record.updatedAt.finClamp then false
  else a.record.id ≤ b.record.id

theorem pendingLE_iff (a b : PendingLoser) :
    pendingLE a b = true ↔
      (a.record.updatedAt.finClamp < b.record.updatedAt.finClamp ∨
       (a.record.updatedAt.finClamp = b.record.updatedAt.finClamp ∧
        a.record.id ≤ b.record.id)) := by
  unfold pendingLE
  by_cases h1 : a.record.updatedAt.finClamp < b.record.updatedAt.finClamp
  · simp [h1]
  · by_cases h2 : b.record.updatedAt.finClamp < a.record.updatedAt.finClamp
    · simp [h1, h2, show a.record.updatedAt.finClamp ≠
        b.record.updatedAt.finClamp by omega]
    · have he : a.record.updatedAt.finClamp = b.record.updatedAt.finClamp := by
        omega
      simp [h1, h2, he]

theorem pendingLE_trans (a b c : PendingLoser)
    (hab : pendingLE a b) (hbc : pendingLE b c) : pendingLE a c := by
  rcases (pendingLE_iff a b).mp hab with h | ⟨h, hid⟩ <;>
    rcases (pendingLE_iff b c).mp hbc with h' | ⟨h', hid'⟩ <;>
    apply (pendingLE_iff a c).mpr
  · left; omega
  · left; omega
  · left; omega
  · right; exact ⟨by omega, le_trans hid hid'⟩

theorem pendingLE_total (a b : PendingLoser) :
    pendingLE a b || pendingLE b a := by
  simp only [Bool.or_eq_true, pendingLE_iff]
  rcases lt_trichotomy a.record.updatedAt.finClamp
    b.record.updatedAt.finClamp with h | h | h
  · left; left; exact h
  · rcases le_total a.record.id b.record.id with hid | hid
    · left; right; exact ⟨h, hid⟩
    · right; right; exact ⟨h.symm, hid⟩
  · right; left; exact h

theorem pendingLE_agrees (a b : PendingLoser) (x y : Int)
    (ha : a.record.updatedAt = JsNum.fin x)
    (hb : b.record.updatedAt = JsNum.fin y) :
    (GitStorage.pendingCmp a b != Ordering.gt) = pendingLE a b := by
  have hclampa : a.record.updatedAt.finClamp = x := by rw [ha]; rfl
  have hclampb : b.record.updatedAt.finClamp = y := by rw [hb]; rfl
  rcases lt_trichotomy x y with h | h | h
  · have hcmp : GitStorage.pendingCmp a b = Ordering.lt := by
      simp only [GitStorage.pendingCmp, GitStorage.jsDiffSign, ha, hb]
      rw [show compare x y = Ordering.lt from compare_lt_iff_lt.mpr h]
    have hle : pendingLE a b = true := by
      rw [pendingLE_iff]
      left
      omega
    rw [hcmp, hle]
    rfl
  · have hcmp : GitStorage.pendingCmp a b =
        compare a.record.id b.record.id := by
      simp only [GitStorage.pendingCmp, GitStorage.jsDiffSign, ha, hb]
      rw [show compare x y = Ordering.eq from compare_eq_iff_eq.mpr h]
    rw [hcmp]
    by_cases hid : a.record.id ≤ b.record.id
    · have h1 : compare a.record.id b.record.id ≠ Ordering.gt :=
        fun hc => absurd (compare_gt_iff_gt.mp hc) (not_lt.mpr hid)
      have h2 : pendingLE a b = true := by
        rw [pendingLE_iff]
        right
        exact ⟨by omega, hid⟩
      rw [h2]
      cases hco : compare a.record.id b.record.id
      · rfl
      · rfl
      · exact absurd hco h1
    · have h1 : compare a.record.id b.record.id = Ordering.gt :=
        compare_gt_iff_gt.mpr (not_le.mp hid)
      have h2 : pendingLE a b = false := by
        rw [Bool.eq_false_iff]
        intro hc
        rcases (pendingLE_iff a b).mp hc with h3 | ⟨_, h3⟩
        · omega
        · exact hid h3
      rw [h1, h2]
      rfl
  · have hcmp : GitStorage.pendingCmp a b = Ordering.gt := by
      simp only [GitStorage.pendingCmp, GitStorage.jsDiffSign, ha, hb]
      rw [show compare x y = Ordering.gt from compare_gt_iff_gt.mpr h]
    have hle : pendingLE a b = false := by
      rw [Bool.eq_false_iff]
      intro hc
      rcases (pendingLE_iff a b).mp hc with h3 | ⟨h3, _⟩ <;> omega
    rw [hcmp, hle]
    rfl

theorem merge_congr {α : Type} (le le' : α → α → Bool) :
    ∀ (xs ys : List α), (∀ a ∈ xs, ∀ b ∈ ys, le a b = le' a b) →
      List.merge xs ys le = List.merge xs ys le' := by
  intro xs
  induction xs with
  | nil => intro ys _; simp
  | cons x xs ihx =>
    intro ys
    induction ys with
    | nil => intro _; simp
    | cons y ys ihy =>
      intro h
      rw [List.cons_merge_cons, List.cons_merge_cons]
      rw [h x (by simp) y (by simp)]
      by_cases hc : le' x y = true
      · rw [if_pos hc, if_pos hc]
        congr 1
        exact ihx (y :: ys) (fun a ha b hb => h a (by simp [ha]) b hb)
      · rw [if_neg hc, if_neg hc]
        congr 1
        exact ihy (fun a ha b hb => h a ha b (by simp [hb]))

theorem mergeSort_congr {α : Type} (le le' : α → α → Bool) :
    ∀ (l : List α), (∀ a ∈ l, ∀ b ∈ l, le a b = le' a b) →
      l.mergeSort le = l.mergeSort le'
  | [], _ => by simp
  | [a], _ => by simp
  | a :: b :: xs, h => by
    rw [List.mergeSort, List.mergeSort]
    have ht1 : (List.splitInTwo ⟨a :: b :: xs, rfl⟩).1.1.length <
        xs.length + 1 + 1 := by
      simp [List.splitInTwo_fst]
      omega
    have ht2 : (List.splitInTwo ⟨a :: b :: xs, rfl⟩).2.1.length <
        xs.length + 1 + 1 := by
      simp [List.splitInTwo_snd]
      omega
    have hsub1 : ∀ x ∈ (List.splitInTwo ⟨a :: b :: xs, rfl⟩).1.1,
        x ∈ a :: b :: xs := by
      intro x hx
      simp only [List.splitInTwo_fst] at hx
      exact List.mem_of_mem_take hx
    have hsub2 : ∀ x ∈ (List.splitInTwo ⟨a :: b :: xs, rfl⟩).2.1,
        x ∈ a :: b :: xs := by
      intro x hx
      simp only [List.splitInTwo_snd] at hx
      exact List.mem_of_mem_drop hx
    have ih1 := mergeSort_congr le le'
      (List.splitInTwo ⟨a :: b :: xs, rfl⟩).1.1
      (fun x hx y hy => h x (hsub1 x hx) y (hsub1 y hy))
    have ih2 := mergeSort_congr le le'
      (List.splitInTwo ⟨a :: b :: xs, rfl⟩).2.1
      (fun x hx y hy => h x (hsub2 x hx) y (hsub2 y hy))
    rw [ih1, ih2]
    apply merge_congr
    intro x hx y hy
    have hx' := (List.mergeSort_perm _ le').subset hx
    have hy' := (List.mergeSort_perm _ le').subset hy
    exact h x (hsub1 x hx') y (hsub2 y hy')
termination_by l => l.length

/-- On a pending-loser list whose `updatedAt` stamps are all finite, the
ascending sort of `applyPendingLosers` produces a list that is pairwise
non-descending for the source comparator. -/
theorem sortLosers_pairwise (pending : List PendingLoser)
    (hfin : ∀ e ∈ pending, ∃ v, e.record.updatedAt = JsNum.fin v) :
    (GitStorage.sortLosers pending).Pairwise
      (fun a b => (GitStorage.pendingCmp a b != Ordering.gt) = true) := by
  have hagree : ∀ a ∈ pending, ∀ b ∈ pending,
      (GitStorage.pendingCmp a b != Ordering.gt) = pendingLE a b := by
    intro a ha b hb
    obtain ⟨x, hx⟩ := hfin a ha
    obtain ⟨y, hy⟩ := hfin b hb
    exact pendingLE_agrees a b x y hx hy
  unfold GitStorage.sortLosers
  rw [mergeSort_congr _ pendingLE pending hagree]
  have hsorted := List.sorted_mergeSort
    (fun a b c hab hbc => pendingLE_trans a b c hab hbc)
    (fun a b => pendingLE_total a b) pending
  refine List.Pairwise.imp_of_mem ?_ hsorted
  intro a b ha hb hR
  have ha' := (List.mergeSort_perm pending pendingLE).subset ha
  have hb' := (List.mergeSort_perm pending pendingLE).subset hb
  rw [hagree a ha' b hb']
  exact hR

theorem jsIndexOf_not_mem (xs : List String) (x : String) (h : x ∉ xs) :
    GitStorage.jsIndexOf xs x = -1 := by
  induction xs with
  | nil => rfl
  | cons y rest ih =>
    have hy : ¬ (y == x) = true := by
      simp only [beq_iff_eq]
      intro he
      exact h (he ▸ List.mem_cons_self y rest)
    have hr : GitStorage.jsIndexOf rest x = -1 :=
      ih (fun hm => h (List.mem_cons_of_mem y hm))
    simp [GitStorage.jsIndexOf, hy, hr]

theorem applyOneLoser_step_append (ids : Nat → String) (t : Int)
    (e : PendingLoser) (st : Store) (n : Nat) (m : RecordEntry)
    (order : List String)
    (hm : lookupRec st (GitStorage.listMetaKey e.listKey) = some m)
    (hdel : jsTruthy m.deletedAt = false)
    (htype : m.type = ValueType.list)
    (horder : GitStorage.extractOrder m.value = order)
    (hw : e.winnerItemId ∉ order) :
    GitStorage.applyOneLoser ids t (st, n) e =
      .ok (setRec (setRec st (GitStorage.markConflictLoserRecord
            { e.record with key := GitStorage.listItemKey e.listKey (ids n) }
            e.winnerItemId))
          (GitStorage.buildListMetaRecord (GitStorage.listMetaKey e.listKey)
            (order ++ [ids n]) (some m) (ids (n + 1)) t),
        n + 1) := by
  have hkey : (GitStorage.markConflictLoserRecord
      { e.record with key := GitStorage.listItemKey e.listKey (ids n) }
      e.winnerItemId).key =
      GitStorage.listItemKey e.listKey (ids n) := markConflictLoserRecord_key _ _
  have hlook1 : lookupRec (setRec st (GitStorage.markConflictLoserRecord
      { e.record with key := GitStorage.listItemKey e.listKey (ids n) }
      e.winnerItemId))
      (GitStorage.listMetaKey e.listKey) = some m := by
    rw [lookupRec_setRec_ne st _ _
      (by rw [hkey]; exact (listItemKey_ne_listMetaKey e.listKey (ids n)).symm)]
    exact hm
  have hmeta1 : GitStorage.getListMeta
      (setRec st (GitStorage.markConflictLoserRecord
        { e.record with key := GitStorage.listItemKey e.listKey (ids n) }
        e.winnerItemId)) e.listKey =
      .ok (some m, order) := by
    simp only [GitStorage.getListMeta, hlook1]
    rw [if_neg (by simp [hdel]), if_neg (by simp [htype]), horder]
  simp only [GitStorage.applyOneLoser, hmeta1]
  rw [jsIndexOf_not_mem order e.winnerItemId hw]
  simp

theorem idsSeq_getElem? (ids : Nat → String) :
    ∀ (m n i : Nat), i < m →
      (GitStorage.idsSeq ids n m)[i]? = some (ids (n + i)) := by
  intro m
  induction m with
  | zero => intro n i hi; exact absurd hi (by omega)
  | succ m ih =>
    intro n i hi
    cases i with
    | zero => simp [GitStorage.idsSeq]
    | succ i2 =>
      have hstep := ih (n + 1) i2 (by omega)
      have harg : n + 1 + i2 = n + (i2 + 1) := by omega
      rw [harg] at hstep
      simp only [GitStorage.idsSeq, List.getElem?_cons_succ]
      exact hstep

theorem idsSeq_reverse_getElem? (ids : Nat → String) (n m j : Nat)
    (hj : j < m) :
    ((GitStorage.idsSeq ids n m).reverse)[j]? =
      some (ids (n + (m - 1 - j))) := by
  rw [List.getElem?_reverse (by rw [idsSeq_length]; exact hj)]
  rw [idsSeq_length]
  exact idsSeq_getElem? ids m n (m - 1 - j) (by omega)

/-- Claim C4: a non-empty pending-loser queue is processed in reverse order
of its ascending `(updatedAt, id)` sort — a pairwise-ascending permutation
of the queue whenever the stamps are finite, as in every queue a merge round
produces; each iteration writes the loser, tagged with the winner, under a
freshly minted item id, and splices that id into the list meta's `order`
immediately after the winner's item id when the winner is present, appending
it otherwise; consequently, when all losers share one winner that is present
in `order`, the fresh ids end up immediately after the winner with the
`j`-th position after the winner holding the marked copy of the `j`-th loser
of the ascending sort. -/
theorem applyPendingLosers_claim (ids : Nat → String) (t : Int) :
    (∀ (st : Store) (n : Nat) (pending : List PendingLoser), pending ≠ [] →
      GitStorage.applyPendingLosers ids t st n pending =
        ((GitStorage.sortLosers pending).reverse).foldlM
          (GitStorage.applyOneLoser ids t) (st, n)) ∧
    (∀ (pending : List PendingLoser),
      (GitStorage.sortLosers pending).Perm pending ∧
      ((∀ e ∈ pending, ∃ v, e.record.updatedAt = JsNum.fin v) →
        (GitStorage.sortLosers pending).Pairwise
          (fun a b => (GitStorage.pendingCmp a b != Ordering.gt) = true))) ∧
    (∀ (e : PendingLoser) (st : Store) (n : Nat) (m : RecordEntry)
        (pre post : List String),
      lookupRec st (GitStorage.listMetaKey e.listKey) = some m →
      jsTruthy m.deletedAt = false →
      m.type = ValueType.list →
      GitStorage.extractOrder m.value = pre ++ (e.winnerItemId :: post) →
      e.winnerItemId ∉ pre →
      GitStorage.applyOneLoser ids t (st, n) e =
        .ok (setRec (setRec st (GitStorage.markConflictLoserRecord
              { e.record with
                key := GitStorage.listItemKey e.listKey (ids n) }
              e.winnerItemId))
            (GitStorage.buildListMetaRecord
              (GitStorage.listMetaKey e.listKey)
              (pre ++ (e.winnerItemId :: (ids n :: post))) (some m)
              (ids (n + 1)) t),
          n + 1)) ∧
    (∀ (e : PendingLoser) (st : Store) (n : Nat) (m : RecordEntry)
        (order : List String),
      lookupRec st (GitStorage.listMetaKey e.listKey) = some m →
      jsTruthy m.deletedAt = false →
      m.type = ValueType.list →
      GitStorage.extractOrder m.value = order →
      e.winnerItemId ∉ order →
      GitStorage.applyOneLoser ids t (st, n) e =
        .ok (setRec (setRec st (GitStorage.markConflictLoserRecord
              { e.record with
                key := GitStorage.listItemKey e.listKey (ids n) }
              e.winnerItemId))
            (GitStorage.buildListMetaRecord
              (GitStorage.listMetaKey e.listKey)
              (order ++ [ids n]) (some m) (ids (n + 1)) t),
          n + 1)) ∧
    (∀ (L w : String) (st : Store) (n : Nat) (pending : List PendingLoser)
        (m : RecordEntry) (pre post : List String),
      pending ≠ [] →
      (∀ e ∈ pending, e.listKey = L ∧ e.winnerItemId = w) →
      lookupRec st (GitStorage.listMetaKey L) = some m →
      jsTruthy m.deletedAt = false →
      m.type = ValueType.list →
      GitStorage.extractOrder m.value = pre ++ (w :: post) →
      w ∉ pre →
      (∀ i j, i < pending.length → j < pending.length →
        ids (n + i) = ids (n + j) → i = j) →
      ∃ st' m',
        GitStorage.applyPendingLosers ids t st n pending =
          .ok (st', n + pending.length) ∧
        lookupRec st' (GitStorage.listMetaKey L) = some m' ∧
        GitStorage.extractOrder m'.value =
          pre ++ (w ::
            ((GitStorage.idsSeq ids n pending.length).reverse ++ post)) ∧
        (∀ j e0, (GitStorage.sortLosers pending)[j]? = some e0 →
          ((GitStorage.idsSeq ids n pending.length).reverse)[j]? =
            some (ids (n + (pending.length - 1 - j))) ∧
          lookupRec st' (GitStorage.listItemKey L
              (ids (n + (pending.length - 1 - j)))) =
            some (GitStorage.markConflictLoserRecord
              { e0.record with key := GitStorage.listItemKey L (ids (n + (pending.length - 1 - j))) }
              w))) := by
  refine ⟨?_, ?_, ?_, ?_, ?_⟩
  · intro st n pending hne
    simp only [GitStorage.applyPendingLosers]
    rw [if_neg (fun h0 => hne (List.length_eq_zero.mp h0))]
  · intro pending
    exact ⟨List.mergeSort_perm pending _, sortLosers_pairwise pending⟩
  · intro e st n m pre post hm hdel htype horder hwpre
    exact applyOneLoser_step ids t e.listKey e.winnerItemId e st n m pre []
      post rfl rfl hm hdel htype horder hwpre
  · intro e st n m order hm hdel htype horder hw
    exact applyOneLoser_step_append ids t e st n m order hm hdel htype
      horder hw
  · intro L w st n pending m pre post hne hall hm hdel htype horder hwpre hinj
    have heslen : ((GitStorage.sortLosers pending).reverse).length =
        pending.length := by
      simp [GitStorage.sortLosers]
    have hallEs : ∀ e ∈ (GitStorage.sortLosers pending).reverse,
        e.listKey = L ∧ e.winnerItemId = w := by
      intro e he
      apply hall
      have h1 : e ∈ GitStorage.sortLosers pending := by
        simpa using he
      exact (List.mergeSort_perm pending _).subset h1
    obtain ⟨st', m', hfold, hm', hdel', htype', horder', hframe, hitem⟩ :=
      applyLosers_run ids t L w ((GitStorage.sortLosers pending).reverse)
        st n m pre [] post hallEs hm hdel htype horder hwpre
    refine ⟨st', m', ?_, hm', ?_, ?_⟩
    · simp only [GitStorage.applyPendingLosers]
      rw [if_neg (fun h0 => hne (List.length_eq_zero.mp h0))]
      rw [hfold, heslen]
    · rw [horder', heslen]
      simp
    · intro j e0 hj
      have hjlen : j < pending.length := by
        have hlt := List.getElem?_eq_some.mp hj
        obtain ⟨hl, _⟩ := hlt
        simpa [GitStorage.sortLosers] using hl
      refine ⟨idsSeq_reverse_getElem? ids n pending.length j hjlen, ?_⟩
      have hj'lt : pending.length - 1 - j <
          ((GitStorage.sortLosers pending).reverse).length := by
        rw [heslen]
        omega
      have hfresh : ∀ i, i < ((GitStorage.sortLosers pending).reverse).length →
          pending.length - 1 - j < i →
          ids (n + i) ≠ ids (n + (pending.length - 1 - j)) := by
        intro i hi hji heq
        rw [heslen] at hi
        have := hinj i (pending.length - 1 - j) hi (by omega) heq
        omega
      have hres := hitem (pending.length - 1 - j) hj'lt hfresh
      have hes_elem : ((GitStorage.sortLosers pending).reverse)[
          pending.length - 1 - j]? = some e0 := by
        rw [List.getElem?_reverse (by
          simp only [GitStorage.sortLosers, List.length_mergeSort]
          omega)]
        have hidx : (GitStorage.sortLosers pending).length - 1 -
            (pending.length - 1 - j) = j := by
          simp only [GitStorage.sortLosers, List.length_mergeSort]
          omega
        rw [hidx]
        exact hj
      rw [hes_elem] at hres
      simpa using hres

/-- A two-value fresh-id supply standing in for `crypto.randomUUID()` in the
C4 witness scenario. -/
def wfIds : Nat → String := fun i => if i = 0 then "n0" else "n1"

def loserA : PendingLoser :=
  { listKey := "k", winnerItemId := "w1",
    record := { id := "a", key := "list:k:item:x", type := .string,
                createdAt := 0, updatedAt := .fin 1, deletedAt := none,
                conflictLoser := none, value := .vstr "va" } }

def loserB : PendingLoser :=
  { listKey := "k", winnerItemId := "w1",
    record := { id := "b", key := "list:k:item:x", type := .string,
                createdAt := 0, updatedAt := .fin 2, deletedAt := none,
                conflictLoser := none, value := .vstr "vb" } }

def loserMetaRec : RecordEntry :=
  { id := "m", key := "list:k", type := .list, createdAt := 0,
    updatedAt := .fin 1, deletedAt := none, conflictLoser := none,
    value := .vobj [("order", .varr [.vstr "w1"])] }

def loserStore : Store := [("list:k", loserMetaRec)]

theorem applyPendingLosers_claim_witness :
    ∃ st' m',
      GitStorage.applyPendingLosers wfIds 5 loserStore 0 [loserA, loserB] =
        .ok (st', 2) ∧
      lookupRec st' (GitStorage.listMetaKey "k") = some m' ∧
      GitStorage.extractOrder m'.value =
        [] ++ ("w1" :: ((GitStorage.idsSeq wfIds 0 2).reverse ++ [])) ∧
      (∀ j e0, (GitStorage.sortLosers [loserA, loserB])[j]? = some e0 →
        ((GitStorage.idsSeq wfIds 0 2).reverse)[j]? =
          some (wfIds (0 + (2 - 1 - j))) ∧
        lookupRec st' (GitStorage.listItemKey "k" (wfIds (0 + (2 - 1 - j)))) =
          some (GitStorage.markConflictLoserRecord
            { e0.record with key := GitStorage.listItemKey "k" (wfIds (0 + (2 - 1 - j))) }
            "w1")) := by
  exact (applyPendingLosers_claim wfIds 5).2.2.2.2 "k" "w1" loserStore 0
    [loserA, loserB] loserMetaRec [] [] (List.cons_ne_nil _ _)
    (by
      intro e he
      rcases List.mem_cons.mp he with h | h
      · subst h
        exact ⟨rfl, rfl⟩
      · rcases List.mem_cons.mp h with h2 | h2
        · subst h2
          exact ⟨rfl, rfl⟩
        · exact absurd h2 (List.not_mem_nil e))
    rfl rfl rfl rfl (by simp)
    (by
      intro i j hi hj heq
      simp only [List.length_cons, List.length_nil] at hi hj
      interval_cases i <;> interval_cases j <;> simp_all [wfIds])
